import Mathlib

/-!
# Verification of the mcp-cache response-management proxy

Shallow embedding of the core of the `mcp-cache` repository:

* `src/cache.ts`   — `CacheManager` (save/get/getMetadata/delete/list/cleanup)
* `src/query.ts`   — `QueryEngine` (detectMode, applyPagination, extractChunk)
* the second in-repo `QueryEngine` (`applyPaginationWithContext`)
* `src/config.ts`  — `ConfigManager.loadConfig` (defaults + env overrides)
* `src/transport.ts` — `TargetServerTransport` (request correlation, timeout)
* `src/proxy.ts`   — `MCPProxy.forwardToolCall` (the size gate)

JavaScript values flowing through the proxy are modelled as a closed JSON
universe `Json` (numbers restricted to integers, which is the sub-universe on
which `JSON.stringify`/`JSON.parse` print and read plain decimal numerals).
`JSON.stringify(data)` is embedded as a concrete serializer `jsonStringify`
and `JSON.parse` as a concrete parser `jsonParse`; the platform guarantee
that `JSON.parse(JSON.stringify(v))` is deep-equal to `v` is *proved* for the
embedding (`jsonParse_jsonStringify`), not assumed.

JavaScript strings are modelled as Lean `String`s.  Where the source measures
`string.length` (UTF-16 code units) we use `jsLength`, and where it measures
`Buffer.byteLength(s, 'utf8')` we use `utf8Length`.  Wall-clock instants
(`Date.now()`, ISO timestamps) are modelled as natural numbers of
milliseconds; the ISO round trip of `new Date(ms).toISOString()` is
millisecond-exact and is abstracted away.  Random id generation
(`randomBytes`) and the current time are passed to the operations as explicit
arguments.  File-system records of the cache directory are modelled as
association lists keyed by id.
-/

/-! ## The JSON value universe -/

mutual

/-- A JSON value (the closed tagged variant of §3 of the design: numbers are
restricted to integers, the sub-universe printed as plain decimal numerals by
`JSON.stringify`). -/
inductive Json where
  | null : Json
  | bool (b : Bool) : Json
  | num (n : Int) : Json
  | str (s : String) : Json
  | arr (elems : JsonList) : Json
  | obj (members : JsonMembers) : Json
deriving DecidableEq

/-- A list of JSON array elements (mutual with `Json` so that structural
recursion and induction stay first-class). -/
inductive JsonList where
  | nil : JsonList
  | cons (hd : Json) (tl : JsonList) : JsonList
deriving DecidableEq

/-- A list of JSON object members (key/value pairs, in insertion order). -/
inductive JsonMembers where
  | nil : JsonMembers
  | cons (key : String) (val : Json) (tl : JsonMembers) : JsonMembers
deriving DecidableEq

end

/-! ## Decimal numerals

`JSON.stringify` prints an integer-valued number as its plain decimal
numeral.  We build the numeral from the little-endian digit list. -/

/-- Little-endian decimal digits of `n` (empty for `0`). -/
def natDigitsRev : Nat → List Nat
  | 0 => []
  | n + 1 => ((n + 1) % 10) :: natDigitsRev ((n + 1) / 10)
decreasing_by exact Nat.div_lt_self (Nat.succ_pos n) (by decide)

/-- The decimal digit character for `d < 10`. -/
def digCh : Nat → Char
  | 0 => '0' | 1 => '1' | 2 => '2' | 3 => '3' | 4 => '4'
  | 5 => '5' | 6 => '6' | 7 => '7' | 8 => '8' | 9 => '9'
  | _ => '0'

/-- Decimal numeral of a natural number, as characters. -/
def natChars (n : Nat) : List Char :=
  if n = 0 then ['0'] else ((natDigitsRev n).reverse.map digCh)

/-- Decimal numeral of an integer (minus sign for negatives), as printed by
`JSON.stringify` for integer-valued numbers. -/
def intChars (i : Int) : List Char :=
  if i < 0 then '-' :: natChars (-i).toNat else natChars i.toNat

/-! ## String escaping (`QuoteJSONString`) -/

/-- Lower-case hexadecimal digit for `d < 16`. -/
def hexCh : Nat → Char
  | 0 => '0' | 1 => '1' | 2 => '2' | 3 => '3' | 4 => '4'
  | 5 => '5' | 6 => '6' | 7 => '7' | 8 => '8' | 9 => '9'
  | 10 => 'a' | 11 => 'b' | 12 => 'c' | 13 => 'd' | 14 => 'e' | 15 => 'f'
  | _ => '0'

/-- Escape of one character inside a JSON string literal, as performed by
`JSON.stringify`: quote and backslash are escaped, the five control-character
shorthands are used, all other characters below `0x20` become `\u00XX`, and
everything else passes through unchanged. -/
def escChar (c : Char) : List Char :=
  if c = '"' then ['\\', '"']
  else if c = '\\' then ['\\', '\\']
  else if c = '\n' then ['\\', 'n']
  else if c = '\r' then ['\\', 'r']
  else if c = '\t' then ['\\', 't']
  else if c = Char.ofNat 8 then ['\\', 'b']
  else if c = Char.ofNat 12 then ['\\', 'f']
  else if c.toNat < 0x20 then
    ['\\', 'u', '0', '0', hexCh (c.toNat / 16), hexCh (c.toNat % 16)]
  else [c]

/-- Escape of a whole string body (no surrounding quotes). -/
def escStr (l : List Char) : List Char :=
  l.foldr (fun c acc => escChar c ++ acc) []

/-! ## The compact serializer — `JSON.stringify(data)` -/

/-- The keyword `null` as characters. -/
def litNull : List Char := ['n', 'u', 'l', 'l']

/-- The keyword `true` as characters. -/
def litTrue : List Char := ['t', 'r', 'u', 'e']

/-- The keyword `false` as characters. -/
def litFalse : List Char := ['f', 'a', 'l', 's', 'e']

mutual

/-- `JSON.stringify(v)` (no indent), as a character list. -/
def serJson : Json → List Char
  | .null => litNull
  | .bool true => litTrue
  | .bool false => litFalse
  | .num i => intChars i
  | .str s => '"' :: escStr s.data ++ ['"']
  | .arr .nil => ['[', ']']
  | .arr (.cons x xs) => '[' :: serJson x ++ serElemsTail xs ++ [']']
  | .obj .nil => ['{', '}']
  | .obj (.cons k v ms) =>
      '{' :: ('"' :: escStr k.data ++ ['"']) ++ ':' :: serJson v
        ++ serMembersTail ms ++ ['}']

/-- Serialization of the second and later array elements (`,elem` each). -/
def serElemsTail : JsonList → List Char
  | .nil => []
  | .cons x xs => ',' :: serJson x ++ serElemsTail xs

/-- Serialization of the second and later object members (`,"k":v` each). -/
def serMembersTail : JsonMembers → List Char
  | .nil => []
  | .cons k v ms =>
      ',' :: ('"' :: escStr k.data ++ ['"']) ++ ':' :: serJson v
        ++ serMembersTail ms

end

/-- `JSON.stringify(data)` — the canonical (compact) serialization used by
`CacheManager.save` and by the proxy's size gate. -/
def jsonStringify (v : Json) : String := ⟨serJson v⟩

/-! ## JavaScript string measures -/

/-- UTF-16 code units occupied by one character (JS `String.length` counts
astral-plane characters as a surrogate pair). -/
def charUtf16 (c : Char) : Nat := if c.toNat < 0x10000 then 1 else 2

/-- JS `string.length`: the number of UTF-16 code units. -/
def jsLength (s : String) : Nat := (s.data.map charUtf16).sum

/-- UTF-8 bytes occupied by one character. -/
def charUtf8 (c : Char) : Nat :=
  if c.toNat < 0x80 then 1
  else if c.toNat < 0x800 then 2
  else if c.toNat < 0x10000 then 3
  else 4

/-- `Buffer.byteLength(s, 'utf8')`: the UTF-8 byte length. -/
def utf8Length (s : String) : Nat := (s.data.map charUtf8).sum

/-! ## The parser — `JSON.parse`

A fueled recursive-descent parser over character lists.  It is only ever
applied (inside the model of `CacheManager.get`) to cache-file contents,
which are outputs of `jsonStringify`; `jsonParse_jsonStringify` below proves
it is a left inverse of the serializer, which is the platform guarantee
`JSON.parse(JSON.stringify(v)) ≡ v` for the embedded value universe. -/

/-- Is `c` a decimal digit? -/
def isDig (c : Char) : Bool := 48 ≤ c.toNat && c.toNat ≤ 57

/-- Numeric value of a decimal digit character. -/
def digVal (c : Char) : Nat := c.toNat - 48

/-- Split off the longest prefix of decimal digits. -/
def takeDigits : List Char → List Char × List Char
  | [] => ([], [])
  | c :: r =>
      if isDig c then
        let p := takeDigits r
        (c :: p.1, p.2)
      else ([], c :: r)

/-- Value of a digit string (most significant first). -/
def digitsToNat (l : List Char) : Nat :=
  l.foldl (fun a c => a * 10 + digVal c) 0

/-- Expect a literal character sequence, returning the remainder. -/
def expectLit : List Char → List Char → Option (List Char)
  | [], l => some l
  | _ :: _, [] => none
  | c :: cs, d :: l => if c = d then expectLit cs l else none

/-- Numeric value of a hexadecimal digit character (lower or upper case). -/
def hexVal (c : Char) : Nat :=
  if 48 ≤ c.toNat ∧ c.toNat ≤ 57 then c.toNat - 48
  else if 97 ≤ c.toNat ∧ c.toNat ≤ 102 then c.toNat - 87
  else if 65 ≤ c.toNat ∧ c.toNat ≤ 70 then c.toNat - 55
  else 0

/-- Parse the body of a JSON string literal (after the opening quote) up to
and including the closing quote, decoding escapes.  Fueled; one unit of fuel
per decoded character suffices. -/
def parseStrBody : Nat → List Char → Option (List Char × List Char)
  | 0, _ => none
  | _ + 1, [] => none
  | fuel + 1, c :: r =>
    if c = '"' then some ([], r)
    else if c = '\\' then
      match r with
      | [] => none
      | e :: r2 =>
        if e = '"' then (parseStrBody fuel r2).map (fun p => ('"' :: p.1, p.2))
        else if e = '\\' then (parseStrBody fuel r2).map (fun p => ('\\' :: p.1, p.2))
        else if e = '/' then (parseStrBody fuel r2).map (fun p => ('/' :: p.1, p.2))
        else if e = 'n' then (parseStrBody fuel r2).map (fun p => ('\n' :: p.1, p.2))
        else if e = 'r' then (parseStrBody fuel r2).map (fun p => ('\r' :: p.1, p.2))
        else if e = 't' then (parseStrBody fuel r2).map (fun p => ('\t' :: p.1, p.2))
        else if e = 'b' then (parseStrBody fuel r2).map (fun p => (Char.ofNat 8 :: p.1, p.2))
        else if e = 'f' then (parseStrBody fuel r2).map (fun p => (Char.ofNat 12 :: p.1, p.2))
        else if e = 'u' then
          match r2 with
          | a :: b :: c2 :: d :: r3 =>
              (parseStrBody fuel r3).map (fun p =>
                (Char.ofNat (hexVal a * 4096 + hexVal b * 256 + hexVal c2 * 16 + hexVal d) :: p.1,
                 p.2))
          | _ => none
        else none
    else (parseStrBody fuel r).map (fun p => (c :: p.1, p.2))

/-- Parse a decimal integer (optional leading minus). -/
def parseIntNum : List Char → Option (Int × List Char)
  | [] => none
  | c :: r =>
      if c = '-' then
        let p := takeDigits r
        if p.1 = [] then none else some (-(digitsToNat p.1 : Int), p.2)
      else
        let p := takeDigits (c :: r)
        if p.1 = [] then none else some ((digitsToNat p.1 : Int), p.2)

mutual

/-- Parse one JSON value.  Fueled: each recursive descent step consumes one
unit, so fuel exceeding the serialized size always suffices. -/
def parseV : Nat → List Char → Option (Json × List Char)
  | 0, _ => none
  | _ + 1, [] => none
  | fuel + 1, c :: r =>
    if c = 'n' then (expectLit ['u', 'l', 'l'] r).map (fun r' => (.null, r'))
    else if c = 't' then (expectLit ['r', 'u', 'e'] r).map (fun r' => (.bool true, r'))
    else if c = 'f' then (expectLit ['a', 'l', 's', 'e'] r).map (fun r' => (.bool false, r'))
    else if c = '"' then
      (parseStrBody (r.length + 1) r).map (fun p => (.str ⟨p.1⟩, p.2))
    else if c = '[' then
      match r with
      | [] => none
      | c2 :: r2 =>
          if c2 = ']' then some (.arr .nil, r2)
          else (parseElems fuel (c2 :: r2)).map (fun p => (.arr p.1, p.2))
    else if c = '{' then
      match r with
      | [] => none
      | c2 :: r2 =>
          if c2 = '}' then some (.obj .nil, r2)
          else (parseMembers fuel (c2 :: r2)).map (fun p => (.obj p.1, p.2))
    else if c = '-' ∨ isDig c then
      (parseIntNum (c :: r)).map (fun p => (.num p.1, p.2))
    else none

/-- Parse a non-empty comma-separated element list up to and including the
closing bracket. -/
def parseElems : Nat → List Char → Option (JsonList × List Char)
  | 0, _ => none
  | fuel + 1, l =>
    match parseV fuel l with
    | none => none
    | some (v, r) =>
      match r with
      | [] => none
      | c :: r2 =>
          if c = ',' then (parseElems fuel r2).map (fun p => (.cons v p.1, p.2))
          else if c = ']' then some (.cons v .nil, r2)
          else none

/-- Parse a non-empty comma-separated member list up to and including the
closing brace. -/
def parseMembers : Nat → List Char → Option (JsonMembers × List Char)
  | 0, _ => none
  | fuel + 1, l =>
    match l with
    | [] => none
    | c :: r =>
      if c = '"' then
        match parseStrBody (r.length + 1) r with
        | none => none
        | some (k, r1) =>
          match r1 with
          | [] => none
          | c1 :: r2 =>
            if c1 = ':' then
              match parseV fuel r2 with
              | none => none
              | some (v, r3) =>
                match r3 with
                | [] => none
                | c3 :: r4 =>
                    if c3 = ',' then
                      (parseMembers fuel r4).map (fun p => (.cons ⟨k⟩ v p.1, p.2))
                    else if c3 = '}' then some (.cons ⟨k⟩ v .nil, r4)
                    else none
            else none
      else none

end

/-- `JSON.parse(s)`: parse one value and require full consumption. -/
def jsonParse (s : String) : Option Json :=
  match parseV (s.data.length + 1) s.data with
  | some (v, []) => some v
  | _ => none

/-! ## Round trip, part 1: decimal numerals -/

theorem natDigitsRev_lt (n : Nat) : ∀ d ∈ natDigitsRev n, d < 10 := by
  induction n using Nat.strong_induction_on with
  | _ n ih =>
    match n with
    | 0 => simp [natDigitsRev]
    | m + 1 =>
      rw [natDigitsRev]
      intro d hd
      rcases List.mem_cons.mp hd with h | h
      · subst h; exact Nat.mod_lt _ (by decide)
      · exact ih ((m + 1) / 10) (Nat.div_lt_self (Nat.succ_pos m) (by decide)) d h

theorem foldl_horner_natDigitsRev (n : Nat) : ∀ acc : Nat,
    List.foldl (fun a d => a * 10 + d) acc (natDigitsRev n).reverse
      = acc * 10 ^ (natDigitsRev n).length + n := by
  induction n using Nat.strong_induction_on with
  | _ n ih =>
    match n with
    | 0 => simp [natDigitsRev]
    | m + 1 =>
      intro acc
      rw [natDigitsRev, List.reverse_cons, List.foldl_append,
        ih ((m + 1) / 10) (Nat.div_lt_self (Nat.succ_pos m) (by decide)) acc]
      have hdm := Nat.div_add_mod (m + 1) 10
      simp only [List.foldl_cons, List.foldl_nil, List.length_cons, pow_succ]
      calc (acc * 10 ^ (natDigitsRev ((m + 1) / 10)).length + (m + 1) / 10) * 10
              + (m + 1) % 10
          = acc * (10 ^ (natDigitsRev ((m + 1) / 10)).length * 10)
              + (10 * ((m + 1) / 10) + (m + 1) % 10) := by ring
        _ = acc * (10 ^ (natDigitsRev ((m + 1) / 10)).length * 10) + (m + 1) := by
              rw [hdm]

theorem digVal_digCh (d : Nat) (h : d < 10) : digVal (digCh d) = d := by
  interval_cases d <;> decide

theorem isDig_digCh (d : Nat) (h : d < 10) : isDig (digCh d) = true := by
  interval_cases d <;> decide

theorem natChars_digits (n : Nat) : ∀ c ∈ natChars n, isDig c = true := by
  intro c hc
  rw [natChars] at hc
  split at hc
  · simp at hc; subst hc; decide
  · obtain ⟨d, hd, rfl⟩ := List.mem_map.mp hc
    exact isDig_digCh d (natDigitsRev_lt n d (List.mem_reverse.mp hd))

theorem natChars_ne_nil (n : Nat) : natChars n ≠ [] := by
  rw [natChars]
  split
  · simp
  · rename_i h
    match n, h with
    | m + 1, _ => rw [natDigitsRev]; simp

theorem foldl_digVal_digCh (l : List Nat) (h : ∀ d ∈ l, d < 10) :
    ∀ acc, List.foldl (fun a d => a * 10 + digVal (digCh d)) acc l
      = List.foldl (fun a d => a * 10 + d) acc l := by
  induction l with
  | nil => intro acc; rfl
  | cons d l ih =>
    intro acc
    simp only [List.foldl_cons]
    rw [digVal_digCh d (h d (List.mem_cons_self _ _))]
    exact ih (fun x hx => h x (List.mem_cons_of_mem _ hx)) _

theorem digitsToNat_natChars (n : Nat) : digitsToNat (natChars n) = n := by
  by_cases h : n = 0
  · subst h; decide
  · rw [natChars, if_neg h]
    unfold digitsToNat
    rw [List.foldl_map,
      foldl_digVal_digCh _ (fun d hd => natDigitsRev_lt n d (List.mem_reverse.mp hd)),
      foldl_horner_natDigitsRev]
    simp

/-- Does the list start with a decimal digit?  (Used to state that the
serialized suffix following a numeral cannot extend it.) -/
def firstIsDigit : List Char → Bool
  | [] => false
  | c :: _ => isDig c

theorem takeDigits_append (l rest : List Char) (hl : ∀ c ∈ l, isDig c = true)
    (hr : firstIsDigit rest = false) : takeDigits (l ++ rest) = (l, rest) := by
  induction l with
  | nil =>
    simp only [List.nil_append]
    match rest, hr with
    | [], _ => rfl
    | c :: r, hr =>
      rw [takeDigits, if_neg]
      simp only [firstIsDigit] at hr
      simp [hr]
  | cons c l ih =>
    rw [List.cons_append, takeDigits,
      if_pos (hl c (List.mem_cons_self _ _)),
      ih (fun x hx => hl x (List.mem_cons_of_mem _ hx))]

theorem isDig_ne_minus (c : Char) (h : isDig c = true) : c ≠ '-' := by
  intro he; subst he; exact absurd h (by decide)

theorem parseIntNum_intChars (i : Int) (rest : List Char)
    (hr : firstIsDigit rest = false) :
    parseIntNum (intChars i ++ rest) = some (i, rest) := by
  rw [intChars]
  split
  · rename_i hneg
    rw [List.cons_append, parseIntNum, if_pos rfl,
      takeDigits_append _ _ (natChars_digits _) hr]
    rw [if_neg (natChars_ne_nil _), digitsToNat_natChars]
    have : -(((-i).toNat : Nat) : Int) = i := by omega
    rw [this]
  · rename_i hpos
    obtain ⟨c, r, hcr⟩ : ∃ c r, natChars i.toNat = c :: r := by
      match hnc : natChars i.toNat with
      | [] => exact absurd hnc (natChars_ne_nil _)
      | c :: r => exact ⟨c, r, rfl⟩
    rw [hcr, List.cons_append, parseIntNum,
      if_neg (isDig_ne_minus c (natChars_digits _ c (hcr ▸ List.mem_cons_self _ _)))]
    rw [← List.cons_append, ← hcr,
      takeDigits_append _ _ (natChars_digits _) hr]
    rw [if_neg (natChars_ne_nil _), digitsToNat_natChars]
    have : ((i.toNat : Nat) : Int) = i := by omega
    rw [this]

/-! ## Round trip, part 2: string literals -/

theorem hexVal_hexCh (d : Nat) (h : d < 16) : hexVal (hexCh d) = d := by
  interval_cases d <;> decide

theorem parseStrBody_escStr (l : List Char) : ∀ (fuel : Nat) (rest : List Char),
    l.length + 1 ≤ fuel →
    parseStrBody fuel (escStr l ++ '"' :: rest) = some (l, rest) := by
  induction l with
  | nil =>
    intro fuel rest hf
    match fuel, hf with
    | f + 1, _ => simp [escStr, parseStrBody]
  | cons c l ih =>
    intro fuel rest hf
    match fuel, hf with
    | f + 1, hf =>
      have hfl : l.length + 1 ≤ f := by
        simp only [List.length_cons] at hf; omega
      have ihl := ih f rest hfl
      rw [show escStr (c :: l) = escChar c ++ escStr l from rfl]
      unfold escChar
      split_ifs with h1 h2 h3 h4 h5 h6 h7 h8
      · subst h1; simp [parseStrBody, ihl]
      · subst h2; simp [parseStrBody, ihl]
      · subst h3; simp [parseStrBody, ihl]
      · subst h4; simp [parseStrBody, ihl]
      · subst h5; simp [parseStrBody, ihl]
      · subst h6; simp [parseStrBody, ihl]
      · subst h7; simp [parseStrBody, ihl]
      · have h16 : hexVal (hexCh (c.toNat / 16)) = c.toNat / 16 :=
          hexVal_hexCh _ (by omega)
        have hm : hexVal (hexCh (c.toNat % 16)) = c.toNat % 16 :=
          hexVal_hexCh _ (Nat.mod_lt _ (by decide))
        have hfin : c.toNat / 16 * 16 + c.toNat % 16 = c.toNat := by omega
        simp [parseStrBody, h16, hm, show hexVal '0' = 0 from by decide, hfin, ihl]
      · rw [List.cons_append]
        simp only [parseStrBody]
        rw [if_neg h1, if_neg h2]
        simp only [List.append_eq, List.nil_append]
        rw [ihl]
        rfl

/-! ## Round trip, part 3: whole values -/

mutual

/-- Fuel needed by `parseV` to parse the serialization of `v`. -/
def needV : Json → Nat
  | .null => 1
  | .bool _ => 1
  | .num _ => 1
  | .str _ => 1
  | .arr .nil => 1
  | .arr (.cons x xs) => 1 + needE x xs
  | .obj .nil => 1
  | .obj (.cons k v ms) => 1 + needM k v ms
termination_by v => sizeOf v
decreasing_by all_goals (simp; try omega)

/-- Fuel needed by `parseElems` for a non-empty element list. -/
def needE : Json → JsonList → Nat
  | x, .nil => 1 + needV x
  | x, .cons y ys => 1 + needV x + needE y ys
termination_by x xs => sizeOf x + sizeOf xs
decreasing_by all_goals (simp; try omega)

/-- Fuel needed by `parseMembers` for a non-empty member list. -/
def needM : String → Json → JsonMembers → Nat
  | _, v, .nil => 1 + needV v
  | _, v, .cons k2 v2 ms => 1 + needV v + needM k2 v2 ms
termination_by _ v ms => sizeOf v + sizeOf ms
decreasing_by all_goals (simp; try omega)

end

theorem escChar_length_pos (c : Char) : 0 < (escChar c).length := by
  unfold escChar
  split_ifs <;> simp

theorem length_le_length_escStr (l : List Char) : l.length ≤ (escStr l).length := by
  induction l with
  | nil => simp [escStr]
  | cons c l ih =>
    rw [show escStr (c :: l) = escChar c ++ escStr l from rfl]
    simp only [List.length_append, List.length_cons]
    have := escChar_length_pos c
    omega

theorem isDig_ne_brackets (c : Char) (h : isDig c = true) :
    c ≠ 'n' ∧ c ≠ 't' ∧ c ≠ 'f' ∧ c ≠ '"' ∧ c ≠ '[' ∧ c ≠ '{' ∧ c ≠ '-'
      ∧ c ≠ ']' ∧ c ≠ '}' := by
  refine ⟨?_, ?_, ?_, ?_, ?_, ?_, ?_, ?_, ?_⟩ <;>
    exact fun he => absurd (he ▸ h) (by decide)

/-- The first character of any serialized value, with the facts needed to
steer the parser's branching. -/
theorem serJson_cons (v : Json) :
    ∃ c t, serJson v = c :: t ∧ c ≠ ']' ∧ c ≠ '}' := by
  match v with
  | .null => exact ⟨'n', _, rfl, by decide, by decide⟩
  | .bool true => exact ⟨'t', _, rfl, by decide, by decide⟩
  | .bool false => exact ⟨'f', _, rfl, by decide, by decide⟩
  | .str s => exact ⟨'"', _, rfl, by decide, by decide⟩
  | .arr .nil => exact ⟨'[', _, rfl, by decide, by decide⟩
  | .arr (.cons x xs) => exact ⟨'[', _, rfl, by decide, by decide⟩
  | .obj .nil => exact ⟨'{', _, rfl, by decide, by decide⟩
  | .obj (.cons k w ms) => exact ⟨'{', _, rfl, by decide, by decide⟩
  | .num i =>
    rw [show serJson (.num i) = intChars i from rfl, intChars]
    split
    · exact ⟨'-', _, rfl, by decide, by decide⟩
    · obtain ⟨c, r, hcr⟩ : ∃ c r, natChars i.toNat = c :: r := by
        match hnc : natChars i.toNat with
        | [] => exact absurd hnc (natChars_ne_nil _)
        | c :: r => exact ⟨c, r, rfl⟩
      have hd := natChars_digits i.toNat c (hcr ▸ List.mem_cons_self _ _)
      exact ⟨c, r, hcr, (isDig_ne_brackets c hd).2.2.2.2.2.2.2.1,
        (isDig_ne_brackets c hd).2.2.2.2.2.2.2.2⟩

theorem firstIsDigit_serElemsTail (xs : JsonList) (rest : List Char) :
    firstIsDigit (serElemsTail xs ++ ']' :: rest) = false := by
  match xs with
  | .nil => rfl
  | .cons y ys => rfl

theorem firstIsDigit_serMembersTail (ms : JsonMembers) (rest : List Char) :
    firstIsDigit (serMembersTail ms ++ '}' :: rest) = false := by
  match ms with
  | .nil => rfl
  | .cons k v ms => rfl

theorem firstIsDigit_cons_false (c : Char) (l : List Char) (h : isDig c = false) :
    firstIsDigit (c :: l) = false := h

theorem needV_pos (v : Json) : 1 ≤ needV v := by
  match v with
  | .null | .bool _ | .num _ | .str _ => simp [needV]
  | .arr .nil | .obj .nil => simp [needV]
  | .arr (.cons x xs) => simp [needV]
  | .obj (.cons k v ms) => simp [needV]

theorem needE_pos (x : Json) (xs : JsonList) : 1 ≤ needE x xs := by
  match xs with
  | .nil => simp [needE]
  | .cons y ys => simp only [needE]; omega

theorem needM_pos (k : String) (v : Json) (ms : JsonMembers) : 1 ≤ needM k v ms := by
  match ms with
  | .nil => simp [needM]
  | .cons k2 v2 ms => simp only [needM]; omega

mutual

/-- The parser inverts the serializer on one value followed by any suffix
that cannot extend a numeral — the heart of the platform round-trip
guarantee `JSON.parse(JSON.stringify(v)) ≡ v`. -/
theorem parseV_ser (v : Json) : ∀ (fuel : Nat) (rest : List Char),
    needV v ≤ fuel → firstIsDigit rest = false →
    parseV fuel (serJson v ++ rest) = some (v, rest) := by
  match v with
  | .null =>
    intro fuel rest hfuel _
    obtain ⟨f, rfl⟩ : ∃ f, fuel = f + 1 := ⟨fuel - 1, by have := needV_pos .null; omega⟩
    simp [serJson, litNull, litTrue, litFalse, parseV, expectLit]
  | .bool true =>
    intro fuel rest hfuel _
    obtain ⟨f, rfl⟩ : ∃ f, fuel = f + 1 := ⟨fuel - 1, by have := needV_pos (.bool true); omega⟩
    simp [serJson, litNull, litTrue, litFalse, parseV, expectLit]
  | .bool false =>
    intro fuel rest hfuel _
    obtain ⟨f, rfl⟩ : ∃ f, fuel = f + 1 := ⟨fuel - 1, by have := needV_pos (.bool false); omega⟩
    simp [serJson, litNull, litTrue, litFalse, parseV, expectLit]
  | .num i =>
    intro fuel rest hfuel hrest
    obtain ⟨f, rfl⟩ : ∃ f, fuel = f + 1 := ⟨fuel - 1, by have := needV_pos (.num i); omega⟩
    obtain ⟨c, t, hct, hcd⟩ : ∃ c t, intChars i = c :: t ∧ (c = '-' ∨ isDig c = true) := by
      rw [intChars]
      split
      · exact ⟨'-', _, rfl, Or.inl rfl⟩
      · obtain ⟨c, r, hcr⟩ : ∃ c r, natChars i.toNat = c :: r := by
          match hnc : natChars i.toNat with
          | [] => exact absurd hnc (natChars_ne_nil _)
          | c :: r => exact ⟨c, r, rfl⟩
        exact ⟨c, r, hcr, Or.inr (natChars_digits _ c (hcr ▸ List.mem_cons_self _ _))⟩
    have hne : c ≠ 'n' ∧ c ≠ 't' ∧ c ≠ 'f' ∧ c ≠ '"' ∧ c ≠ '[' ∧ c ≠ '{' := by
      rcases hcd with rfl | hd
      · exact ⟨by decide, by decide, by decide, by decide, by decide, by decide⟩
      · have h := isDig_ne_brackets c hd
        exact ⟨h.1, h.2.1, h.2.2.1, h.2.2.2.1, h.2.2.2.2.1, h.2.2.2.2.2.1⟩
    rw [show serJson (.num i) = intChars i from rfl, hct, List.cons_append]
    simp only [parseV]
    rw [if_neg hne.1, if_neg hne.2.1, if_neg hne.2.2.1, if_neg hne.2.2.2.1,
      if_neg hne.2.2.2.2.1, if_neg hne.2.2.2.2.2,
      if_pos (show c = '-' ∨ isDig c = true from hcd)]
    rw [← List.cons_append, ← hct, parseIntNum_intChars i rest hrest]
    rfl
  | .str s =>
    intro fuel rest hfuel _
    obtain ⟨f, rfl⟩ : ∃ f, fuel = f + 1 := ⟨fuel - 1, by have := needV_pos (.str s); omega⟩
    obtain ⟨d⟩ := s
    have hser : serJson (.str ⟨d⟩) ++ rest = '"' :: (escStr d ++ '"' :: rest) := by
      rw [show serJson (.str ⟨d⟩) = '"' :: escStr d ++ ['"'] from rfl]
      simp
    rw [hser]
    simp only [parseV]
    have hlen : d.length + 1 ≤ (escStr d ++ '"' :: rest).length + 1 := by
      have := length_le_length_escStr d
      simp only [List.length_append, List.length_cons]
      omega
    rw [parseStrBody_escStr d _ rest hlen]
    simp
  | .arr .nil =>
    intro fuel rest hfuel _
    obtain ⟨f, rfl⟩ : ∃ f, fuel = f + 1 := ⟨fuel - 1, by have := needV_pos (.arr .nil); omega⟩
    simp [serJson, parseV]
  | .arr (.cons x xs) =>
    intro fuel rest hfuel _
    obtain ⟨f, rfl⟩ : ∃ f, fuel = f + 1 := ⟨fuel - 1, by have := needV_pos (.arr (.cons x xs)); omega⟩
    have hE : needE x xs ≤ f := by simp [needV] at hfuel; omega
    obtain ⟨c2, t, hct, hc2r, _⟩ := serJson_cons x
    have hser : serJson (.arr (.cons x xs)) ++ rest
        = '[' :: (serJson x ++ (serElemsTail xs ++ ']' :: rest)) := by
      rw [show serJson (.arr (.cons x xs)) = '[' :: serJson x ++ serElemsTail xs ++ [']'] from rfl]
      simp
    rw [hser, hct, List.cons_append]
    simp only [parseV]
    rw [← List.cons_append, ← hct, parseElems_ser x xs f rest hE]
    simp [hc2r]
  | .obj .nil =>
    intro fuel rest hfuel _
    obtain ⟨f, rfl⟩ : ∃ f, fuel = f + 1 := ⟨fuel - 1, by have := needV_pos (.obj .nil); omega⟩
    simp [serJson, parseV]
  | .obj (.cons k v ms) =>
    intro fuel rest hfuel _
    obtain ⟨f, rfl⟩ : ∃ f, fuel = f + 1 :=
      ⟨fuel - 1, by have := needV_pos (.obj (.cons k v ms)); omega⟩
    have hM : needM k v ms ≤ f := by simp [needV] at hfuel; omega
    have hser : serJson (.obj (.cons k v ms)) ++ rest
        = '{' :: ('"' :: (escStr k.data ++ '"' :: ':' ::
            (serJson v ++ (serMembersTail ms ++ '}' :: rest)))) := by
      rw [show serJson (.obj (.cons k v ms))
          = '{' :: ('"' :: escStr k.data ++ ['"']) ++ ':' :: serJson v
              ++ serMembersTail ms ++ ['}'] from rfl]
      simp
    rw [hser]
    simp only [parseV]
    rw [parseMembers_ser k v ms f rest hM]
    simp
termination_by sizeOf v
decreasing_by all_goals (simp; try omega)

/-- The element-list parser inverts the element-list serializer. -/
theorem parseElems_ser (x : Json) (xs : JsonList) : ∀ (fuel : Nat) (rest : List Char),
    needE x xs ≤ fuel →
    parseElems fuel (serJson x ++ (serElemsTail xs ++ ']' :: rest))
      = some (.cons x xs, rest) := by
  match xs with
  | .nil =>
    intro fuel rest hfuel
    obtain ⟨f, rfl⟩ : ∃ f, fuel = f + 1 := ⟨fuel - 1, by have := needE_pos x .nil; omega⟩
    have hV : needV x ≤ f := by simp [needE] at hfuel; omega
    simp only [serElemsTail, List.nil_append]
    simp only [parseElems]
    rw [parseV_ser x f (']' :: rest) hV (firstIsDigit_cons_false _ _ (by decide))]
    simp
  | .cons y ys =>
    intro fuel rest hfuel
    obtain ⟨f, rfl⟩ : ∃ f, fuel = f + 1 := ⟨fuel - 1, by have := needE_pos x (.cons y ys); omega⟩
    have hV : needV x ≤ f := by simp [needE] at hfuel; omega
    have hE : needE y ys ≤ f := by simp [needE] at hfuel; omega
    have htail : serElemsTail (.cons y ys) ++ ']' :: rest
        = ',' :: (serJson y ++ (serElemsTail ys ++ ']' :: rest)) := by
      rw [show serElemsTail (.cons y ys) = ',' :: serJson y ++ serElemsTail ys from rfl]
      simp
    rw [htail]
    simp only [parseElems]
    rw [parseV_ser x f _ hV (firstIsDigit_cons_false _ _ (by decide))]
    simp only []
    rw [parseElems_ser y ys f rest hE]
    simp
termination_by sizeOf x + sizeOf xs
decreasing_by all_goals (simp; try omega)

/-- The member-list parser inverts the member-list serializer. -/
theorem parseMembers_ser (k : String) (v : Json) (ms : JsonMembers) :
    ∀ (fuel : Nat) (rest : List Char),
    needM k v ms ≤ fuel →
    parseMembers fuel ('"' :: (escStr k.data ++ '"' :: ':' ::
        (serJson v ++ (serMembersTail ms ++ '}' :: rest))))
      = some (.cons k v ms, rest) := by
  match ms with
  | .nil =>
    intro fuel rest hfuel
    obtain ⟨f, rfl⟩ : ∃ f, fuel = f + 1 := ⟨fuel - 1, by have := needM_pos k v .nil; omega⟩
    have hV : needV v ≤ f := by simp [needM] at hfuel; omega
    obtain ⟨d⟩ := k
    simp only [serMembersTail, List.nil_append]
    simp only [parseMembers]
    have hlen : d.length + 1
        ≤ (escStr d ++ '"' :: ':' :: (serJson v ++ '}' :: rest)).length + 1 := by
      have := length_le_length_escStr d
      simp only [List.length_append, List.length_cons]
      omega
    rw [parseStrBody_escStr d _ _ hlen]
    simp only []
    rw [parseV_ser v f ('}' :: rest) hV (firstIsDigit_cons_false _ _ (by decide))]
    simp
  | .cons k2 v2 ms2 =>
    intro fuel rest hfuel
    obtain ⟨f, rfl⟩ : ∃ f, fuel = f + 1 :=
      ⟨fuel - 1, by have := needM_pos k v (.cons k2 v2 ms2); omega⟩
    have hV : needV v ≤ f := by simp [needM] at hfuel; omega
    have hM : needM k2 v2 ms2 ≤ f := by simp [needM] at hfuel; omega
    obtain ⟨d⟩ := k
    have htail : serMembersTail (.cons k2 v2 ms2) ++ '}' :: rest
        = ',' :: ('"' :: (escStr k2.data ++ '"' :: ':' ::
            (serJson v2 ++ (serMembersTail ms2 ++ '}' :: rest)))) := by
      rw [show serMembersTail (.cons k2 v2 ms2)
          = ',' :: ('"' :: escStr k2.data ++ ['"']) ++ ':' :: serJson v2
              ++ serMembersTail ms2 from rfl]
      simp
    rw [htail]
    simp only [parseMembers]
    have hlen : d.length + 1
        ≤ (escStr d ++ '"' :: ':' ::
            (serJson v ++ ',' :: ('"' :: (escStr k2.data ++ '"' :: ':' ::
              (serJson v2 ++ (serMembersTail ms2 ++ '}' :: rest)))))).length + 1 := by
      have := length_le_length_escStr d
      simp only [List.length_append, List.length_cons]
      omega
    rw [parseStrBody_escStr d _ _ hlen]
    simp only []
    rw [parseV_ser v f _ hV (firstIsDigit_cons_false _ _ (by decide))]
    simp only []
    rw [parseMembers_ser k2 v2 ms2 f rest hM]
    simp
termination_by sizeOf v + sizeOf ms
decreasing_by all_goals (simp; try omega)

end

theorem intChars_ne_nil (i : Int) : intChars i ≠ [] := by
  rw [intChars]
  split
  · simp
  · exact natChars_ne_nil _

mutual

/-- The fuel measure is bounded by the serialized length. -/
theorem needV_le (v : Json) : needV v ≤ (serJson v).length := by
  match v with
  | .null => simp [needV, serJson, litNull]
  | .bool true => simp [needV, serJson, litTrue]
  | .bool false => simp [needV, serJson, litFalse]
  | .num i =>
    have h := List.length_pos.mpr (intChars_ne_nil i)
    simp only [needV, show serJson (.num i) = intChars i from rfl]
    omega
  | .str s =>
    simp only [needV, show serJson (.str s) = '"' :: escStr s.data ++ ['"'] from rfl]
    simp
  | .arr .nil => simp [needV, serJson]
  | .arr (.cons x xs) =>
    have h := needE_le x xs
    simp only [needV,
      show serJson (.arr (.cons x xs)) = '[' :: serJson x ++ serElemsTail xs ++ [']'] from rfl]
    simp only [List.length_append, List.length_cons, List.length_nil]
    omega
  | .obj .nil => simp [needV, serJson]
  | .obj (.cons k v ms) =>
    have h := needM_le k v ms
    simp only [needV,
      show serJson (.obj (.cons k v ms))
        = '{' :: ('"' :: escStr k.data ++ ['"']) ++ ':' :: serJson v
            ++ serMembersTail ms ++ ['}'] from rfl]
    simp only [List.length_append, List.length_cons, List.length_nil]
    omega
termination_by sizeOf v
decreasing_by all_goals (simp; try omega)

theorem needE_le (x : Json) (xs : JsonList) :
    needE x xs ≤ (serJson x).length + (serElemsTail xs).length + 1 := by
  match xs with
  | .nil =>
    have h := needV_le x
    simp only [needE, serElemsTail, List.length_nil]
    omega
  | .cons y ys =>
    have h1 := needV_le x
    have h2 := needE_le y ys
    simp only [needE,
      show serElemsTail (.cons y ys) = ',' :: serJson y ++ serElemsTail ys from rfl]
    simp only [List.length_append, List.length_cons]
    omega
termination_by sizeOf x + sizeOf xs
decreasing_by all_goals (simp; try omega)

theorem needM_le (k : String) (v : Json) (ms : JsonMembers) :
    needM k v ms ≤ (serJson v).length + (serMembersTail ms).length + 1 := by
  match ms with
  | .nil =>
    have h := needV_le v
    simp only [needM, serMembersTail, List.length_nil]
    omega
  | .cons k2 v2 ms2 =>
    have h1 := needV_le v
    have h2 := needM_le k2 v2 ms2
    simp only [needM,
      show serMembersTail (.cons k2 v2 ms2)
        = ',' :: ('"' :: escStr k2.data ++ ['"']) ++ ':' :: serJson v2
            ++ serMembersTail ms2 from rfl]
    simp only [List.length_append, List.length_cons]
    omega
termination_by sizeOf v + sizeOf ms
decreasing_by all_goals (simp; try omega)

end

/-- The platform round-trip guarantee, proved for the embedding:
`JSON.parse(JSON.stringify(v))` is (deep-)equal to `v`. -/
theorem jsonParse_jsonStringify (v : Json) : jsonParse (jsonStringify v) = some v := by
  unfold jsonParse jsonStringify
  have h := parseV_ser v ((serJson v).length + 1) []
    (by have := needV_le v; omega) rfl
  rw [List.append_nil] at h
  simp only []
  rw [h]

/-! ## The pretty serializer — `JSON.stringify(data, null, 2)`

`QueryEngine` renders values with a two-space indent before searching or
chunking.  `ind` is the current nesting indent in spaces. -/

/-- `n` spaces. -/
def spaces (n : Nat) : List Char := List.replicate n ' '

mutual

/-- `JSON.stringify(v, null, 2)` at indent `ind`, as a character list. -/
def serP : Json → Nat → List Char
  | .null, _ => litNull
  | .bool true, _ => litTrue
  | .bool false, _ => litFalse
  | .num i, _ => intChars i
  | .str s, _ => '"' :: escStr s.data ++ ['"']
  | .arr .nil, _ => ['[', ']']
  | .arr (.cons x xs), ind =>
      '[' :: '\n' :: (spaces (ind + 2) ++ serP x (ind + 2) ++ serPElems xs (ind + 2)
        ++ '\n' :: spaces ind ++ [']'])
  | .obj .nil, _ => ['{', '}']
  | .obj (.cons k v ms), ind =>
      '{' :: '\n' :: (spaces (ind + 2) ++ ('"' :: escStr k.data ++ ['"'])
        ++ ':' :: ' ' :: serP v (ind + 2)
        ++ serPMembers ms (ind + 2) ++ '\n' :: spaces ind ++ ['}'])

/-- Pretty serialization of the second and later array elements. -/
def serPElems : JsonList → Nat → List Char
  | .nil, _ => []
  | .cons y ys, ind => ',' :: '\n' :: (spaces ind ++ serP y ind ++ serPElems ys ind)

/-- Pretty serialization of the second and later object members. -/
def serPMembers : JsonMembers → Nat → List Char
  | .nil, _ => []
  | .cons k v ms, ind =>
      ',' :: '\n' :: (spaces ind ++ ('"' :: escStr k.data ++ ['"'])
        ++ ':' :: ' ' :: serP v ind ++ serPMembers ms ind)

end

/-- `JSON.stringify(data, null, 2)` — the canonical indented rendering used
by the query engine's text/regex search and by `extractChunk`. -/
def jsonStringifyPretty (v : Json) : String := ⟨serP v 0⟩

/-! ## QueryEngine (`src/query.ts` and the second in-repo copy) -/

/-- The three query modes. -/
inductive QueryMode where
  | text
  | jsonpath
  | regex
deriving DecidableEq

/-- `QueryOptions` from `src/types.ts`: every field is optional; numeric
fields are naturals (the JS values actually passed by the orchestrator). -/
structure QueryOptions where
  mode : Option QueryMode := none
  limit : Option Nat := none
  offset : Option Nat := none
  contextLines : Option Nat := none
  caseSensitive : Option Bool := none
deriving DecidableEq

/-- JS `s.startsWith(p)` (UTF-16 prefix test; on the model's strings a
character-list prefix test). -/
def jsStartsWith (s p : String) : Bool := p.data.isPrefixOf s.data

/-- JS `s.endsWith(p)`. -/
def jsEndsWith (s p : String) : Bool := p.data.isSuffixOf s.data

/-- `QueryEngine.detectMode`: leading `$` means jsonpath; leading *and
trailing* `/` means regex; anything else is text. -/
def detectMode (query : String) : QueryMode :=
  if jsStartsWith query "$" then .jsonpath
  else if jsStartsWith query "/" && jsEndsWith query "/" then .regex
  else .text

/-- Mode resolution in `QueryEngine.query`:
`options.mode || this.detectMode(query)`. -/
def resolveMode (options : QueryOptions) (query : String) : QueryMode :=
  match options.mode with
  | some m => m
  | none => detectMode query

/-- JS falsy-defaulting `x || d` for an optional number: `undefined` and `0`
both yield the default. -/
def orDefaultNum (o : Option Nat) (d : Nat) : Nat :=
  match o with
  | none => d
  | some n => if n = 0 then d else n

/-- The pagination envelope returned by both pagination helpers. -/
structure PaginatedResult (α : Type) where
  results : List α
  total : Nat
  limit : Nat
  offset : Nat
  hasMore : Bool
deriving DecidableEq

/-- `QueryEngine.applyPagination` (`src/query.ts` lines 95–108):
`limit = options.limit || 100`, `offset = options.offset || 0`,
`results.slice(offset, offset + limit)`, `hasMore = offset + limit < total`. -/
def applyPagination {α : Type} (results : List α) (options : QueryOptions) :
    PaginatedResult α :=
  let limit := orDefaultNum options.limit 100
  let offset := orDefaultNum options.offset 0
  { results := (results.drop offset).take limit
    total := results.length
    limit := limit
    offset := offset
    hasMore := decide (offset + limit < results.length) }

/-- A match record produced by the second query engine's text/regex search
(`match` is a Lean keyword, so the optional matched substring is `matched`). -/
structure MatchLine where
  line : Nat
  content : String
  chunk : Option Nat := none
  matched : Option String := none
deriving DecidableEq

/-- A match record with its attached context lines. -/
structure MatchWithContext where
  line : Nat
  content : String
  chunk : Option Nat
  matched : Option String
  before : List String
  after : List String
deriving DecidableEq

/-- `QueryEngine.applyPaginationWithContext` (second in-repo query engine):
attaches up to `contextLines` (default 2, via `??`) trimmed lines before and
after each match, then paginates exactly like `applyPagination`.  The source
parameter `matches` is a Lean keyword, hence `matchList`. -/
def applyPaginationWithContext (matchList : List MatchLine) (allLines : List String)
    (options : QueryOptions) : PaginatedResult MatchWithContext :=
  let contextLines := options.contextLines.getD 2
  let matchesWithContext := matchList.map (fun m =>
    let lineIndex := m.line - 1
    { line := m.line, content := m.content, chunk := m.chunk, matched := m.matched
      before := (List.range' (lineIndex - contextLines)
          (lineIndex - (lineIndex - contextLines))).map
          (fun i => (allLines.getD i "").trim)
      after := (List.range' (lineIndex + 1)
          (min (allLines.length - 1) (lineIndex + contextLines) - lineIndex)).map
          (fun i => (allLines.getD i "").trim) : MatchWithContext })
  let limit := orDefaultNum options.limit 100
  let offset := orDefaultNum options.offset 0
  { results := (matchesWithContext.drop offset).take limit
    total := matchList.length
    limit := limit
    offset := offset
    hasMore := decide (offset + limit < matchList.length) }

/-- `Math.ceil(a / b)` for naturals (`b > 0`; with `b = 0` the JS original
degenerates to `Infinity`/`NaN`, which no claim exercises). -/
def ceilDiv (a b : Nat) : Nat := (a + b - 1) / b

/-- The record returned by `QueryEngine.extractChunk`; the source reuses the
name `chunkSize` for the *actual* length of the returned chunk. -/
structure ChunkResult where
  chunk : String
  chunkNumber : Int
  totalChunks : Nat
  chunkSize : Nat
  hasMore : Bool
deriving DecidableEq

/-- `QueryEngine.extractChunk(data, chunkNumber, chunkSize)`: renders the
value with the pretty serializer, computes `totalChunks = ceil(len / size)`,
range-checks the chunk index (`throw` becomes `Except.error`), and slices
`[start, min(start + size, len))`.  The model slices by characters where JS
slices by UTF-16 code units; both views agree on the concatenation laws. -/
def extractChunk (data : Json) (chunkNumber : Int) (chunkSize : Nat) :
    Except String ChunkResult :=
  let dataStr := jsonStringifyPretty data
  let totalChunks := ceilDiv dataStr.data.length chunkSize
  if chunkNumber < 0 ∨ (totalChunks : Int) ≤ chunkNumber then
    .error ("Invalid chunk number. Valid range: 0-" ++ toString ((totalChunks : Int) - 1))
  else
    let start := chunkNumber.toNat * chunkSize
    let chunk := (dataStr.data.drop start).take chunkSize
    .ok { chunk := ⟨chunk⟩
          chunkNumber := chunkNumber
          totalChunks := totalChunks
          chunkSize := chunk.length
          hasMore := decide (chunkNumber < (totalChunks : Int) - 1) }

/-! ## CacheManager (`src/cache.ts`)

The cache directory is modelled as two association lists keyed by id: the
contents of `${id}.json` (the serialized payload string) and of
`${id}.meta.json` (its metadata record; the metadata JSON round trip of
`writeFile(JSON.stringify(metadata))` / `JSON.parse(readFile(...))` is
structural).  `Date.now()` is an explicit `now : Nat` in milliseconds, and
`generateId`'s `randomBytes` value is the explicit `freshId` argument. -/

/-- `ResponseMetadata` from `src/types.ts` (timestamps in ms since epoch —
`toISOString` round trips them exactly). -/
structure ResponseMetadata where
  id : String
  tool : String
  sizeBytes : Nat
  createdAt : Nat
  expiresAt : Nat
  client : String
  chunks : Nat
  indexed : Bool
deriving DecidableEq

/-- Replace-on-write of one file in a directory listing. -/
def putFile {α : Type} (files : List (String × α)) (k : String) (v : α) :
    List (String × α) :=
  (k, v) :: files.filter (fun p => !(p.1 == k))

/-- `unlink` of one file (no error reported here; callers check presence). -/
def delFile {α : Type} (files : List (String × α)) (k : String) :
    List (String × α) :=
  files.filter (fun p => !(p.1 == k))

/-- The `CacheManager` state: its constructor-supplied `ttl` (seconds) and
the cache directory contents. -/
structure CacheManager where
  ttl : Nat
  dataFiles : List (String × String)
  metaFiles : List (String × ResponseMetadata)
deriving DecidableEq

/-- `CacheManager.save(tool, data, client)`: serializes with
`JSON.stringify(data)`, takes `sizeBytes = Buffer.byteLength(dataStr, 'utf8')`,
`chunks = Math.ceil(dataStr.length / 10000)` (a hard-coded 10000, the source's
"rough estimate" — not the configured chunk size), writes the payload file and
the metadata file, and returns the id. -/
def CacheManager.save (cm : CacheManager) (freshId : String) (now : Nat)
    (tool : String) (data : Json) (client : String) : String × CacheManager :=
  let id := freshId
  let expiresAt := now + cm.ttl * 1000
  let dataStr := jsonStringify data
  let sizeBytes := utf8Length dataStr
  let metadata : ResponseMetadata :=
    { id := id, tool := tool, sizeBytes := sizeBytes, createdAt := now
      expiresAt := expiresAt, client := client
      chunks := ceilDiv (jsLength dataStr) 10000, indexed := false }
  (id, { cm with dataFiles := putFile cm.dataFiles id dataStr
                 metaFiles := putFile cm.metaFiles id metadata })

/-- `CacheManager.getMetadata(id)`: reads and parses `${id}.meta.json`;
absent (not an error) when the file is missing. -/
def CacheManager.getMetadata (cm : CacheManager) (id : String) :
    Option ResponseMetadata :=
  cm.metaFiles.lookup id

/-- `CacheManager.delete(id)`: `unlink` of the payload file, then `unlink` of
the metadata file, `true` on success; the first failed `unlink` throws into
the `catch` and returns `false` — so a missing payload file aborts before the
metadata file is touched. -/
def CacheManager.delete (cm : CacheManager) (id : String) : Bool × CacheManager :=
  match cm.dataFiles.lookup id with
  | none => (false, cm)
  | some _ =>
    let cm1 := { cm with dataFiles := delFile cm.dataFiles id }
    match cm.metaFiles.lookup id with
    | none => (false, cm1)
    | some _ => (true, { cm1 with metaFiles := delFile cm.metaFiles id })

/-- `CacheManager.get(id)`: if the metadata exists and `expiresAt` is in the
past, delete eagerly and report absent; otherwise read and `JSON.parse` the
payload file, with every failure (missing file, parse error) caught and
reported as absent. -/
def CacheManager.get (cm : CacheManager) (now : Nat) (id : String) :
    Option Json × CacheManager :=
  match cm.metaFiles.lookup id with
  | some m =>
    if m.expiresAt < now then (none, (cm.delete id).2)
    else ((cm.dataFiles.lookup id).bind jsonParse, cm)
  | none => ((cm.dataFiles.lookup id).bind jsonParse, cm)

/-- `CacheManager.list()`: every parsed `*.meta.json` in the directory. -/
def CacheManager.list (cm : CacheManager) : List ResponseMetadata :=
  cm.metaFiles.map (·.2)

/-- `CacheManager.cleanup()`: deletes every listed record whose `expiresAt`
is before `now` and counts the expired items. -/
def CacheManager.cleanup (cm : CacheManager) (now : Nat) : Nat × CacheManager :=
  let expired := cm.list.filter (fun m => decide (m.expiresAt < now))
  (expired.length, expired.foldl (fun acc m => (acc.delete m.id).2) cm)

/-- `CacheManager.refresh(id)`: false on an unknown id; otherwise rewrites
the metadata file with `expiresAt = now + ttl`. -/
def CacheManager.refresh (cm : CacheManager) (now : Nat) (id : String) :
    Bool × CacheManager :=
  match cm.metaFiles.lookup id with
  | none => (false, cm)
  | some m =>
    let m2 := { m with expiresAt := now + cm.ttl * 1000 }
    (true, { cm with metaFiles := putFile cm.metaFiles id m2 })

/-! ## ConfigManager (`src/config.ts`) -/

/-- `StreamConfig` from `src/types.ts`. -/
structure StreamConfig where
  maxTokens : Nat
  chunkSize : Nat
  ttl : Nat
  cacheDir : String
  enableIndexing : Bool
  compression : Bool
  debug : Bool
deriving DecidableEq

/-- `DEFAULT_CONFIG` from `src/types.ts`. -/
def DEFAULT_CONFIG : StreamConfig :=
  { maxTokens := 25000, chunkSize := 10000, ttl := 3600
    cacheDir := "~/.mcp-cache/cache"
    enableIndexing := true, compression := true, debug := false }

/-- `CLIENT_PRESETS` from `src/types.ts` (the `'default'` entry is the
`getD 20000` at the use site). -/
def CLIENT_PRESETS (name : String) : Option Nat :=
  if name = "claude-ai" then some 25000
  else if name = "claude-code" then some 25000
  else if name = "cursor" then some 30000
  else if name = "cline" then some 25000
  else none

/-- `ClientInfo` from `src/types.ts`. -/
structure ClientInfo where
  name : String
  version : String
deriving DecidableEq

/-- The `MCP_CACHE_*` environment variables seen by `loadConfig`; numeric
variables are modelled post-`parseInt` as optional naturals, boolean ones as
the result of the `=== 'true'` comparison.  (Home-directory expansion of
`cacheDir` is cosmetic path handling and is not modelled.) -/
structure Env where
  maxTokens : Option Nat := none
  chunkSize : Option Nat := none
  ttl : Option Nat := none
  cacheDir : Option String := none
  enableIndexing : Option Bool := none
  compression : Option Bool := none
  debug : Option Bool := none

/-- `ConfigManager.loadConfig`: defaults, then the client preset for
`maxTokens` (falling back to the `'default'` preset 20000), then environment
overrides. -/
def loadConfig (env : Env) (clientInfo : Option ClientInfo) : StreamConfig :=
  let c1 := match clientInfo with
    | some ci => { DEFAULT_CONFIG with maxTokens := (CLIENT_PRESETS ci.name).getD 20000 }
    | none => DEFAULT_CONFIG
  { c1 with
    maxTokens := env.maxTokens.getD c1.maxTokens
    chunkSize := env.chunkSize.getD c1.chunkSize
    ttl := env.ttl.getD c1.ttl
    cacheDir := env.cacheDir.getD c1.cacheDir
    enableIndexing := env.enableIndexing.getD c1.enableIndexing
    compression := env.compression.getD c1.compression
    debug := env.debug.getD c1.debug }

/-! ## TargetServerTransport (`src/transport.ts`)

The request/response correlation state machine.  `messageHandlers` is the set
of pending ids; a promise's eventual fate is recorded in `settled`.  Wall
clock does not appear: the 30-second `setTimeout` is modelled as the explicit
`fireTimeout` event, which the runtime delivers 30 seconds after the matching
`sendRequest` unless the handler was already consumed. -/

/-- The fate of one `sendRequest` promise. -/
inductive ROutcome where
  | resolved (v : Json)
  | rejected (msg : String)
deriving DecidableEq

/-- Transport state: `nextId` starts at 1; `pending` is the key set of the
`messageHandlers` map; `settled` records each promise's outcome. -/
structure TargetServerTransport where
  nextId : Nat
  pending : List Nat
  settled : List (Nat × ROutcome)
deriving DecidableEq

/-- An inbound JSON-RPC message: `id` is absent for notifications; `error`,
when present, carries an optional `message` field. -/
structure RpcMessage where
  id : Option Nat
  result : Json := .null
  error : Option (Option String) := none
deriving DecidableEq

/-- `TargetServerTransport.sendRequest`: allocates `id = this.nextId++`,
registers the handler, and writes the framed request (the write itself has no
observable state here). -/
def TargetServerTransport.sendRequest (t : TargetServerTransport) :
    Nat × TargetServerTransport :=
  (t.nextId, { t with nextId := t.nextId + 1, pending := t.nextId :: t.pending })

/-- The outcome a handler gives a correlated response:
`reject(new Error(response.error.message || 'Unknown error'))` when `error`
is present, `resolve(response.result)` otherwise. -/
def responseOutcome (msg : RpcMessage) : ROutcome :=
  match msg.error with
  | some e => .rejected (e.getD "Unknown error")
  | none => .resolved msg.result

/-- `TargetServerTransport.handleMessage`: a message with an id settles and
removes the matching pending handler, and is silently dropped when no handler
is registered; a message without an id is a notification (delivered to
notification listeners, which hold no state modelled here). -/
def TargetServerTransport.handleMessage (t : TargetServerTransport)
    (msg : RpcMessage) : TargetServerTransport :=
  match msg.id with
  | some i =>
      if i ∈ t.pending then
        { t with pending := t.pending.erase i
                 settled := (i, responseOutcome msg) :: t.settled }
      else t
  | none => t

/-- The 30-second timeout callback for id `i`: if the handler is still
registered it is discarded and the promise rejected with `Request timeout`;
otherwise nothing happens. -/
def TargetServerTransport.fireTimeout (t : TargetServerTransport) (i : Nat) :
    TargetServerTransport :=
  if i ∈ t.pending then
    { t with pending := t.pending.erase i
             settled := (i, .rejected "Request timeout") :: t.settled }
  else t

/-! ## MCPProxy.forwardToolCall (`src/proxy.ts` lines 357–396) -/

/-- The fields embedded in the size-gate summary text: the new id, the
response size in bytes (rendered as KiB with two decimals in the text), and
`metadata?.chunks` / `metadata?.expiresAt` read back after the save. -/
structure ForwardSummary where
  responseId : String
  sizeBytes : Nat
  chunks : Option Nat
  expiresAt : Option Nat
deriving DecidableEq

/-- What `forwardToolCall` returns to the client: the remote response as-is,
or the cached-summary text (which does not contain the payload). -/
inductive ForwardResult where
  | raw (response : Json)
  | cached (summary : ForwardSummary)
deriving DecidableEq

/-- `MCP_SDK_LIMIT` — 900KB, "stay under 1MB SDK limit". -/
def MCP_SDK_LIMIT : Nat := 900000

/-- The size gate of `MCPProxy.forwardToolCall`, after the remote response
has arrived: `responseSize = JSON.stringify(response).length`,
`maxSize = min(MCP_SDK_LIMIT, getMaxTokens() * 4)`; above the gate the
response is saved (client label `this.clientInfo?.name || 'unknown'` passed
as `clientName`, the fresh random id as `freshId`) and only the summary is
returned; otherwise the response is returned unmodified. -/
def MCPProxy.forwardToolCall (cm : CacheManager) (maxTokens : Nat)
    (freshId : String) (now : Nat) (clientName : String) (toolName : String)
    (response : Json) : ForwardResult × CacheManager :=
  let responseSize := jsLength (jsonStringify response)
  let tokenLimit := maxTokens * 4
  let maxSize := min MCP_SDK_LIMIT tokenLimit
  if responseSize > maxSize then
    let saved := cm.save freshId now toolName response clientName
    let metadata := saved.2.getMetadata saved.1
    (.cached { responseId := saved.1, sizeBytes := responseSize
               chunks := metadata.map (·.chunks)
               expiresAt := metadata.map (·.expiresAt) }, saved.2)
  else (.raw response, cm)

/-! ## Store lemmas -/

theorem lookup_putFile_self {α : Type} (files : List (String × α)) (k : String) (v : α) :
    (putFile files k v).lookup k = some v := by
  simp [putFile, List.lookup]

theorem lookup_delFile_self {α : Type} (files : List (String × α)) (k : String) :
    (delFile files k).lookup k = none := by
  induction files with
  | nil => rfl
  | cons p l ih =>
    unfold delFile at ih ⊢
    rw [List.filter_cons]
    by_cases h : p.1 = k
    · have hb : (!(p.1 == k)) = false := by simp [h]
      rw [hb]
      simp only [if_false, Bool.false_eq_true]
      exact ih
    · have hb : (!(p.1 == k)) = true := by simp [h]
      rw [hb]
      simp only [if_true]
      rw [List.lookup]
      have hk : (k == p.1) = false := by simp [Ne.symm h]
      rw [hk]
      exact ih

/-! ## Claim C4 — query-mode auto-detection -/

/-- C4 (counterexample): the claim says `"/foo/i"` (slashes with trailing
flags) auto-detects as regex mode; `detectMode` requires the string to *end*
with `/`, so `"/foo/i"` resolves to text mode instead. -/
theorem detectMode_flags_counterexample :
    resolveMode {} "/foo/i" = QueryMode.text
      ∧ resolveMode {} "/foo/i" ≠ QueryMode.regex := by
  constructor
  · decide
  · decide

/-- C4 (amended): with `options.mode` unset, a leading `$` selects jsonpath
mode; a string that both starts *and ends* with `/` selects regex mode;
anything else — including a slash-string with trailing flags such as
`"/foo/i"` — selects text mode.  `"$.a.b"`, `"/foo/"`, `"foo"` behave as the
claim's examples say, and an explicit `options.mode` always wins. -/
theorem detectMode_spec :
    (∀ q : String, jsStartsWith q "$" = true → resolveMode {} q = QueryMode.jsonpath)
    ∧ (∀ q : String, jsStartsWith q "$" = false → jsStartsWith q "/" = true →
        jsEndsWith q "/" = true → resolveMode {} q = QueryMode.regex)
    ∧ (∀ q : String, jsStartsWith q "$" = false →
        jsStartsWith q "/" = false ∨ jsEndsWith q "/" = false →
        resolveMode {} q = QueryMode.text)
    ∧ resolveMode {} "$.a.b" = QueryMode.jsonpath
    ∧ resolveMode {} "/foo/" = QueryMode.regex
    ∧ resolveMode {} "/foo/i" = QueryMode.text
    ∧ resolveMode {} "foo" = QueryMode.text
    ∧ (∀ (q : String) (m : QueryMode), resolveMode { mode := some m } q = m) := by
  refine ⟨?_, ?_, ?_, by decide, by decide, by decide, by decide, fun q m => rfl⟩
  · intro q h
    simp [resolveMode, detectMode, h]
  · intro q h1 h2 h3
    simp [resolveMode, detectMode, h1, h2, h3]
  · intro q h1 h2
    rcases h2 with h2 | h2 <;> simp [resolveMode, detectMode, h1, h2]

/-- C4 (witness): the general clauses of `detectMode_spec` applied at
concrete query strings. -/
theorem detectMode_spec_witness :
    resolveMode {} "$x" = QueryMode.jsonpath
    ∧ resolveMode {} "/ab/" = QueryMode.regex
    ∧ resolveMode {} "/ab" = QueryMode.text :=
  ⟨detectMode_spec.1 "$x" (by decide),
   detectMode_spec.2.1 "/ab/" (by decide) (by decide) (by decide),
   detectMode_spec.2.2.1 "/ab" (by decide) (Or.inr (by decide))⟩

/-! ## Claims C6 and C10 — pagination -/

/-- C6 (counterexample): the claim quantifies over *every* limit `L`; at
`L = 0` the falsy default kicks in (`limit || 100`), so the result is not
`matches[0:0] = []` — a one-element match set comes back whole. -/
theorem applyPagination_limit_zero_counterexample :
    (applyPagination [(0 : Nat)] { limit := some 0, offset := some 0 }).results = [0]
      ∧ (applyPagination [(0 : Nat)] { limit := some 0, offset := some 0 }).results
          ≠ ([(0 : Nat)].drop 0).take 0 := by
  constructor
  · decide
  · decide

/-- C6 (amended): for every *positive* limit `L` and every offset `O`,
`applyPagination` returns `results = matches[O : O+L]`, `total` is the full
match count, `hasMore = O + L < total` (false exactly when `O + L ≥ total`),
and two consecutive pages of size `L` are the first `2·L` matches with no
duplication and no gap.  (At `L = 0` the falsy default substitutes 100 —
claim C10.) -/
theorem applyPagination_spec (α : Type) (matchList : List α) (L O : Nat)
    (hL : 1 ≤ L) :
    (applyPagination matchList { limit := some L, offset := some O }
      = { results := (matchList.drop O).take L
          total := matchList.length
          limit := L
          offset := O
          hasMore := decide (O + L < matchList.length) })
    ∧ ((applyPagination matchList { limit := some L, offset := some O }).hasMore = false
        ↔ matchList.length ≤ O + L)
    ∧ ((applyPagination matchList { limit := some L, offset := some 0 }).results
        ++ (applyPagination matchList { limit := some L, offset := some L }).results
        = matchList.take (2 * L)) := by
  have hdefL : orDefaultNum (some L) 100 = L := by
    rw [orDefaultNum]; split <;> omega
  have hdefO : orDefaultNum (some O) 0 = O := by
    rw [orDefaultNum]; split <;> omega
  have hdefL0 : orDefaultNum (some L) 0 = L := by
    rw [orDefaultNum]; split <;> omega
  refine ⟨?_, ?_, ?_⟩
  · simp only [applyPagination]
    rw [hdefL, hdefO]
  · simp only [applyPagination]
    rw [hdefL, hdefO]
    simp only [decide_eq_false_iff_not, not_lt]
    try omega
  · simp only [applyPagination]
    rw [hdefL, hdefL0, show orDefaultNum (some 0) 0 = 0 from rfl]
    simp only [List.drop_zero]
    rw [two_mul, List.take_add]

/-- C6 (witness): the amended pagination law at a concrete match set,
`L = 2`, `O = 1`. -/
theorem applyPagination_spec_witness :
    (applyPagination [10, 20, 30, 40] { limit := some 2, offset := some 1 }
      = { results := [20, 30], total := 4, limit := 2, offset := 1, hasMore := true })
    ∧ ((applyPagination [10, 20, 30, 40] { limit := some 2, offset := some 1 }).hasMore = false
        ↔ (4 : Nat) ≤ 3)
    ∧ ((applyPagination [10, 20, 30, 40] { limit := some 2, offset := some 0 }).results
        ++ (applyPagination [10, 20, 30, 40] { limit := some 2, offset := some 2 }).results
        = [10, 20, 30, 40].take 4) := by
  have h := applyPagination_spec Nat [10, 20, 30, 40] 2 1 (by decide)
  have h2 := applyPagination_spec Nat [10, 20, 30, 40] 2 2 (by decide)
  refine ⟨?_, ?_, h2.2.2⟩
  · rw [h.1]; decide
  · exact h.2.1

/-- C10: both pagination helpers default with a falsiness test
(`options.limit || 100`, `options.offset || 0`), so an explicit `limit: 0`
(or `offset: 0`) is replaced by the default: `limit = some 0` behaves
identically to an unset limit and yields the default 100, and a caller can
never request zero results — the effective limit is always at least 1, so a
page starting inside the match set is never empty. -/
theorem pagination_limit_zero_defaults (α : Type) (results : List α)
    (mo : Option QueryMode) (o l : Option Nat) (cl : Option Nat) (cs : Option Bool)
    (matchList : List MatchLine) (allLines : List String) :
    (applyPagination results
        { mode := mo, limit := some 0, offset := o, contextLines := cl, caseSensitive := cs }
      = applyPagination results
        { mode := mo, limit := none, offset := o, contextLines := cl, caseSensitive := cs })
    ∧ (applyPagination results
        { mode := mo, limit := some 0, offset := o, contextLines := cl, caseSensitive := cs }).limit
        = 100
    ∧ (applyPagination results
        { mode := mo, limit := l, offset := some 0, contextLines := cl, caseSensitive := cs }
      = applyPagination results
        { mode := mo, limit := l, offset := none, contextLines := cl, caseSensitive := cs })
    ∧ (applyPaginationWithContext matchList allLines
        { mode := mo, limit := some 0, offset := o, contextLines := cl, caseSensitive := cs }
      = applyPaginationWithContext matchList allLines
        { mode := mo, limit := none, offset := o, contextLines := cl, caseSensitive := cs })
    ∧ (∀ opts : QueryOptions, 1 ≤ orDefaultNum opts.limit 100)
    ∧ (∀ opts : QueryOptions, orDefaultNum opts.offset 0 < results.length →
        (applyPagination results opts).results ≠ []) := by
  refine ⟨rfl, rfl, rfl, rfl, ?_, ?_⟩
  · intro opts
    rcases opts.limit with _ | n
    · simp [orDefaultNum]
    · rw [orDefaultNum]
      split <;> omega
  · intro opts hoff
    have hlim : 1 ≤ orDefaultNum opts.limit 100 := by
      rcases opts.limit with _ | n
      · simp [orDefaultNum]
      · rw [orDefaultNum]; split <;> omega
    simp only [applyPagination, ne_eq, ← List.length_eq_zero]
    rw [List.length_take, List.length_drop]
    omega

/-- C10 (witness): limit 0 at a concrete three-element match set behaves as
an unset limit, and a page at offset 1 is non-empty. -/
theorem pagination_limit_zero_defaults_witness :
    (applyPagination [1, 2, 3] { limit := some 0 }
      = applyPagination [1, 2, 3] { (({} : QueryOptions)) with limit := none })
    ∧ (applyPagination [(1 : Nat), 2, 3] { limit := some 0 }).limit = 100
    ∧ (applyPagination [(1 : Nat), 2, 3] { limit := some 2, offset := some 1 }).results ≠ [] := by
  have h := pagination_limit_zero_defaults Nat [1, 2, 3] none none (some 2) none none [] []
  exact ⟨h.1, h.2.1,
    (pagination_limit_zero_defaults Nat [1, 2, 3] none (some 1) (some 2) none none [] []).2.2.2.2.2
      { limit := some 2, offset := some 1 } (by decide)⟩

/-! ## Claim C5 — chunk count recorded at save time -/

/-- C5 (counterexample): configure `chunkSize = 3` through the environment
override; saving the payload `"abcde"` (serialization `"abcde"` of JS length
7) records `chunks = ceil(7 / 10000) = 1`, not `ceil(7 / 3) = 3` — the save
path divides by a hard-coded 10000 and ignores the configured chunk size. -/
theorem save_chunks_counterexample :
    (loadConfig { chunkSize := some 3 } none).chunkSize = 3
    ∧ (((CacheManager.mk (loadConfig { chunkSize := some 3 } none).ttl [] []).save
          "resp_0" 0 "tool" (.str "abcde") "client").2.getMetadata
        "resp_0").map (·.chunks) = some 1
    ∧ ceilDiv (jsLength (jsonStringify (.str "abcde")))
        (loadConfig { chunkSize := some 3 } none).chunkSize = 3 := by
  refine ⟨rfl, ?_, rfl⟩
  decide

/-- C5 (amended): the `chunkCount` recorded by `CacheManager.save` is
`ceil(serializedLength / 10000)` with a *hard-coded* divisor of 10000 (the
source's "rough estimate"), independent of the configured chunk size; it
coincides with the claim's `ceil(serializedLength / chunkSize)` only when the
configured chunk size is the default 10000. -/
theorem save_chunks_hardcoded (cm : CacheManager) (freshId : String) (now : Nat)
    (tool : String) (data : Json) (client : String) :
    (((cm.save freshId now tool data client).2.getMetadata
        (cm.save freshId now tool data client).1).map (·.chunks))
      = some (ceilDiv (jsLength (jsonStringify data)) 10000) := by
  simp only [CacheManager.save, CacheManager.getMetadata]
  rw [lookup_putFile_self]
  rfl

/-! ## Claim C2 — save/get round trip and recorded size -/

/-- C2: for every payload and every id returned by `CacheManager.save`, an
immediately following `get` (same clock instant) returns a value deep-equal
to the payload — via the proved `JSON.parse ∘ JSON.stringify` round trip —
and the recorded `sizeBytes` is exactly `Buffer.byteLength` of the canonical
serialization. -/
theorem save_get_roundtrip (cm : CacheManager) (freshId : String) (now : Nat)
    (tool : String) (data : Json) (client : String) :
    (((cm.save freshId now tool data client).2.get now
        (cm.save freshId now tool data client).1).1 = some data)
    ∧ (((cm.save freshId now tool data client).2.getMetadata
          (cm.save freshId now tool data client).1).map (·.sizeBytes)
        = some (utf8Length (jsonStringify data))) := by
  constructor
  · simp only [CacheManager.save, CacheManager.get]
    rw [lookup_putFile_self]
    simp only []
    rw [if_neg (by omega)]
    rw [lookup_putFile_self]
    simp [jsonParse_jsonStringify]
  · simp only [CacheManager.save, CacheManager.getMetadata]
    rw [lookup_putFile_self]
    rfl

/-! ## Claim C7 — lazy expiry and absence semantics of `get` -/

/-- C7: (a) when the metadata's `expiresAt` is in the past and the payload
record exists (the state `save` creates), `get` eagerly deletes both records
and reports absent; (b) when the id does not exist at all, `get` reports
absent (no error) and leaves the store untouched; (c) for an unexpired stored
id, `get` returns the deserialized value and changes nothing. -/
theorem get_expiry_semantics (cm : CacheManager) (now : Nat) (id : String) :
    (∀ m s, cm.metaFiles.lookup id = some m → m.expiresAt < now →
        cm.dataFiles.lookup id = some s →
        (cm.get now id).1 = none
        ∧ (cm.get now id).2.dataFiles.lookup id = none
        ∧ (cm.get now id).2.metaFiles.lookup id = none)
    ∧ (cm.metaFiles.lookup id = none → cm.dataFiles.lookup id = none →
        (cm.get now id).1 = none ∧ (cm.get now id).2 = cm)
    ∧ (∀ m v, cm.metaFiles.lookup id = some m → ¬ m.expiresAt < now →
        cm.dataFiles.lookup id = some (jsonStringify v) →
        (cm.get now id).1 = some v ∧ (cm.get now id).2 = cm) := by
  refine ⟨?_, ?_, ?_⟩
  · intro m s hm hexp hs
    have hd : cm.delete id
        = (true, { cm with dataFiles := delFile cm.dataFiles id
                           metaFiles := delFile cm.metaFiles id }) := by
      simp only [CacheManager.delete]
      rw [hs, hm]
    simp only [CacheManager.get]
    rw [hm]
    simp only []
    rw [if_pos hexp, hd]
    exact ⟨rfl, lookup_delFile_self _ _, lookup_delFile_self _ _⟩
  · intro hm hs
    simp only [CacheManager.get]
    rw [hm, hs]
    exact ⟨rfl, rfl⟩
  · intro m v hm hexp hs
    simp only [CacheManager.get]
    rw [hm]
    simp only []
    rw [if_neg hexp, hs]
    simp [jsonParse_jsonStringify]

/-- C7 (witness): an expired record reads back absent, a missing id reads
back absent, and an unexpired saved null payload reads back as null. -/
theorem get_expiry_semantics_witness :
    (((CacheManager.mk 3600 [("resp_a", jsonStringify .null)]
        [("resp_a", ResponseMetadata.mk "resp_a" "t" 4 0 5 "c" 1 false)]).get
        10 "resp_a").1 = none)
    ∧ (((CacheManager.mk 3600 [] []).get 10 "resp_x").1 = none)
    ∧ (((CacheManager.mk 3600 [("resp_a", jsonStringify .null)]
        [("resp_a", ResponseMetadata.mk "resp_a" "t" 4 0 5 "c" 1 false)]).get
        3 "resp_a").1 = some .null) := by
  refine ⟨?_, ?_, ?_⟩
  · exact ((get_expiry_semantics
      (CacheManager.mk 3600 [("resp_a", jsonStringify .null)]
        [("resp_a", ResponseMetadata.mk "resp_a" "t" 4 0 5 "c" 1 false)]) 10 "resp_a").1
      (ResponseMetadata.mk "resp_a" "t" 4 0 5 "c" 1 false) (jsonStringify .null)
      rfl (by decide) rfl).1
  · exact ((get_expiry_semantics (CacheManager.mk 3600 [] []) 10 "resp_x").2.1 rfl rfl).1
  · exact ((get_expiry_semantics
      (CacheManager.mk 3600 [("resp_a", jsonStringify .null)]
        [("resp_a", ResponseMetadata.mk "resp_a" "t" 4 0 5 "c" 1 false)]) 3 "resp_a").2.2
      (ResponseMetadata.mk "resp_a" "t" 4 0 5 "c" 1 false) Json.null
      rfl (by decide) rfl).1

/-! ## Claim C8 — delete semantics -/

/-- C8 (counterexample): in a state holding only a metadata record for
`resp_x` (no payload record — the orphan the two-file layout admits), the
claim's "after delete returns, neither record remains" fails: the payload
`unlink` throws first, the catch returns `false`, and the metadata record
survives. -/
theorem delete_counterexample :
    ((CacheManager.mk 3600 []
        [("resp_x", ResponseMetadata.mk "resp_x" "t" 4 0 5 "c" 1 false)]).delete
        "resp_x").1 = false
    ∧ (((CacheManager.mk 3600 []
        [("resp_x", ResponseMetadata.mk "resp_x" "t" 4 0 5 "c" 1 false)]).delete
        "resp_x").2.metaFiles.lookup "resp_x"
      = some (ResponseMetadata.mk "resp_x" "t" 4 0 5 "c" 1 false)) := by
  constructor
  · rfl
  · rfl

/-- C8 (amended): `delete` unlinks the payload record and then the metadata
record.  With both present it returns `true` and neither remains; with the
payload present but the metadata missing it returns `false` and neither
remains; with the payload already missing it returns `false` (not an error)
and leaves the store — including any orphan metadata record — untouched. -/
theorem delete_spec (cm : CacheManager) (id : String) :
    (∀ s m, cm.dataFiles.lookup id = some s → cm.metaFiles.lookup id = some m →
        (cm.delete id).1 = true
        ∧ (cm.delete id).2.dataFiles.lookup id = none
        ∧ (cm.delete id).2.metaFiles.lookup id = none)
    ∧ (∀ s, cm.dataFiles.lookup id = some s → cm.metaFiles.lookup id = none →
        (cm.delete id).1 = false
        ∧ (cm.delete id).2.dataFiles.lookup id = none
        ∧ (cm.delete id).2.metaFiles.lookup id = none)
    ∧ (cm.dataFiles.lookup id = none →
        (cm.delete id).1 = false ∧ (cm.delete id).2 = cm) := by
  refine ⟨?_, ?_, ?_⟩
  · intro s m hs hm
    simp only [CacheManager.delete]
    rw [hs, hm]
    exact ⟨rfl, lookup_delFile_self _ _, lookup_delFile_self _ _⟩
  · intro s hs hm
    simp only [CacheManager.delete]
    rw [hs, hm]
    exact ⟨rfl, lookup_delFile_self _ _, hm⟩
  · intro hs
    simp only [CacheManager.delete]
    rw [hs]
    exact ⟨rfl, rfl⟩

/-- C8 (witness): the three delete situations at concrete one-record
stores. -/
theorem delete_spec_witness :
    (((CacheManager.mk 3600 [("resp_a", "null")]
        [("resp_a", ResponseMetadata.mk "resp_a" "t" 4 0 5 "c" 1 false)]).delete
        "resp_a").1 = true)
    ∧ (((CacheManager.mk 3600 [("resp_a", "null")] []).delete "resp_a").1 = false)
    ∧ (((CacheManager.mk 3600 [] []).delete "resp_a").1 = false) := by
  refine ⟨?_, ?_, ?_⟩
  · exact ((delete_spec
      (CacheManager.mk 3600 [("resp_a", "null")]
        [("resp_a", ResponseMetadata.mk "resp_a" "t" 4 0 5 "c" 1 false)]) "resp_a").1
      "null" (ResponseMetadata.mk "resp_a" "t" 4 0 5 "c" 1 false) rfl rfl).1
  · exact ((delete_spec (CacheManager.mk 3600 [("resp_a", "null")] []) "resp_a").2.1
      "null" rfl rfl).1
  · exact ((delete_spec (CacheManager.mk 3600 [] []) "resp_a").2.2 rfl).1

/-! ## Claim C9 — transport correlation, errors, timeout, late responses -/

/-- C9: starting from a state whose fresh id is not already pending (true of
every reachable state), `sendRequest` allocates `nextId` and increments it
(so consecutive calls allocate increasing ids); a correlated response with a
`result` resolves the promise; one with an `error` rejects it with the
remote-supplied message; the timeout event rejects it with `Request timeout`
and discards the correlation record; and once the record is gone, a late
matching response changes nothing — it is silently dropped. -/
theorem sendRequest_correlation (t : TargetServerTransport)
    (h : t.nextId ∉ t.pending) :
    (t.sendRequest.1 = t.nextId
      ∧ t.sendRequest.2.nextId = t.nextId + 1
      ∧ t.sendRequest.2.sendRequest.1 = t.nextId + 1)
    ∧ (∀ r : Json,
        t.sendRequest.2.handleMessage { id := some t.nextId, result := r }
          = { nextId := t.nextId + 1, pending := t.pending
              settled := (t.nextId, .resolved r) :: t.settled })
    ∧ (∀ msg : String,
        t.sendRequest.2.handleMessage
            { id := some t.nextId, error := some (some msg) }
          = { nextId := t.nextId + 1, pending := t.pending
              settled := (t.nextId, .rejected msg) :: t.settled })
    ∧ (t.sendRequest.2.fireTimeout t.nextId
        = { nextId := t.nextId + 1, pending := t.pending
            settled := (t.nextId, .rejected "Request timeout") :: t.settled }
      ∧ t.nextId ∉ (t.sendRequest.2.fireTimeout t.nextId).pending)
    ∧ (∀ msg : RpcMessage, msg.id = some t.nextId →
        (t.sendRequest.2.fireTimeout t.nextId).handleMessage msg
          = t.sendRequest.2.fireTimeout t.nextId) := by
  have hsend : t.sendRequest.2
      = { nextId := t.nextId + 1, pending := t.nextId :: t.pending
          settled := t.settled } := rfl
  have herase : (t.nextId :: t.pending).erase t.nextId = t.pending := by
    simp [List.erase_cons_head]
  have hfire : t.sendRequest.2.fireTimeout t.nextId
      = { nextId := t.nextId + 1, pending := t.pending
          settled := (t.nextId, .rejected "Request timeout") :: t.settled } := by
    rw [hsend]
    simp only [TargetServerTransport.fireTimeout]
    rw [if_pos (List.mem_cons_self _ _)]
    simp [herase]
  refine ⟨⟨rfl, rfl, rfl⟩, ?_, ?_, ⟨hfire, ?_⟩, ?_⟩
  · intro r
    rw [hsend]
    simp only [TargetServerTransport.handleMessage]
    rw [if_pos (List.mem_cons_self _ _)]
    simp [herase, responseOutcome]
  · intro msg
    rw [hsend]
    simp only [TargetServerTransport.handleMessage]
    rw [if_pos (List.mem_cons_self _ _)]
    simp [herase, responseOutcome]
  · rw [hfire]
    exact h
  · intro msg hmsg
    rw [hfire]
    simp only [TargetServerTransport.handleMessage]
    rw [hmsg]
    simp only []
    rw [if_neg h]

/-- C9 (witness): the correlation laws at the transport's initial state
(`nextId = 1`, nothing pending): the first request gets id 1, the second id
2, a matching error response rejects with the remote message, the timeout
rejects with `Request timeout`, and a post-timeout response is dropped. -/
theorem sendRequest_correlation_witness :
    ((TargetServerTransport.mk 1 [] []).sendRequest.1 = 1
      ∧ (TargetServerTransport.mk 1 [] []).sendRequest.2.sendRequest.1 = 2)
    ∧ ((TargetServerTransport.mk 1 [] []).sendRequest.2.handleMessage
        { id := some 1, error := some (some "boom") }
      = { nextId := 2, pending := [], settled := [(1, .rejected "boom")] })
    ∧ ((TargetServerTransport.mk 1 [] []).sendRequest.2.fireTimeout 1
        = { nextId := 2, pending := [], settled := [(1, .rejected "Request timeout")] })
    ∧ (((TargetServerTransport.mk 1 [] []).sendRequest.2.fireTimeout 1).handleMessage
        { id := some 1, result := .bool true }
      = (TargetServerTransport.mk 1 [] []).sendRequest.2.fireTimeout 1) := by
  have h := sendRequest_correlation (TargetServerTransport.mk 1 [] []) (by decide)
  exact ⟨⟨h.1.1, h.1.2.2⟩, h.2.2.1 "boom", h.2.2.2.1.1,
    h.2.2.2.2 { id := some 1, result := .bool true } rfl⟩

/-! ## Claim C1 — the pass-through size gate -/

/-- C1: after a forwarded response arrives, the gate is
`maxSize = min(900000, maxTokens·4)` against the serialized response's
measured length.  Above the gate the orchestrator's state is exactly
`Store.save`'s post-state and the client gets only a structured summary
carrying the new id, the measured size (rendered in KiB), the saved
metadata's chunk count and its expiry timestamp — never the payload.  At or
below the gate the response comes back unmodified and the store is
untouched. -/
theorem forwardToolCall_size_gate (cm : CacheManager) (maxTokens : Nat)
    (freshId : String) (now : Nat) (clientName toolName : String)
    (response : Json) :
    (jsLength (jsonStringify response) > min MCP_SDK_LIMIT (maxTokens * 4) →
      (MCPProxy.forwardToolCall cm maxTokens freshId now clientName toolName
          response).2
        = (cm.save freshId now toolName response clientName).2
      ∧ (MCPProxy.forwardToolCall cm maxTokens freshId now clientName toolName
          response).1
        = .cached
            { responseId := (cm.save freshId now toolName response clientName).1
              sizeBytes := jsLength (jsonStringify response)
              chunks := some (ceilDiv (jsLength (jsonStringify response)) 10000)
              expiresAt := some (now + cm.ttl * 1000) }
      ∧ (∀ r : Json,
          (MCPProxy.forwardToolCall cm maxTokens freshId now clientName toolName
            response).1 ≠ .raw r))
    ∧ (¬ jsLength (jsonStringify response) > min MCP_SDK_LIMIT (maxTokens * 4) →
        MCPProxy.forwardToolCall cm maxTokens freshId now clientName toolName
          response = (.raw response, cm)) := by
  constructor
  · intro hgt
    have hmeta : (cm.save freshId now toolName response clientName).2.getMetadata
        (cm.save freshId now toolName response clientName).1
        = some { id := freshId, tool := toolName
                 sizeBytes := utf8Length (jsonStringify response)
                 createdAt := now, expiresAt := now + cm.ttl * 1000
                 client := clientName
                 chunks := ceilDiv (jsLength (jsonStringify response)) 10000
                 indexed := false } := by
      simp only [CacheManager.save, CacheManager.getMetadata]
      rw [lookup_putFile_self]
    refine ⟨?_, ?_, ?_⟩
    · simp only [MCPProxy.forwardToolCall]
      rw [if_pos hgt]
    · simp only [MCPProxy.forwardToolCall]
      rw [if_pos hgt]
      simp only [hmeta, Option.map_some']
    · intro r
      simp only [MCPProxy.forwardToolCall]
      rw [if_pos hgt]
      simp
  · intro hle
    simp only [MCPProxy.forwardToolCall]
    rw [if_neg hle]

/-- C1 (witness): with a token limit of 1 (gate `min(900000, 4) = 4`) the
nine-character response `"abcdefg"` is cached and summarized, while with the
default limit 25000 the short response passes through unchanged with no save. -/
theorem forwardToolCall_size_gate_witness :
    ((MCPProxy.forwardToolCall (CacheManager.mk 3600 [] []) 1 "resp_9" 50
        "claude-ai" "dom" (.str "abcdefg")).1
      = .cached { responseId := "resp_9", sizeBytes := 9, chunks := some 1
                  expiresAt := some 3600050 })
    ∧ (MCPProxy.forwardToolCall (CacheManager.mk 3600 [] []) 25000 "resp_9" 50
        "claude-ai" "dom" (.str "abcdefg")
      = (.raw (.str "abcdefg"), CacheManager.mk 3600 [] [])) := by
  constructor
  · have h := (forwardToolCall_size_gate (CacheManager.mk 3600 [] []) 1 "resp_9" 50
      "claude-ai" "dom" (.str "abcdefg")).1 (by decide)
    rw [h.2.1]
    rfl
  · exact (forwardToolCall_size_gate (CacheManager.mk 3600 [] []) 25000 "resp_9" 50
      "claude-ai" "dom" (.str "abcdefg")).2 (by decide)

/-! ## Claim C3 — chunk extraction round trip -/

theorem ceilDivZeroEq (cs : Nat) : ceilDiv 0 cs = 0 := by
  match cs with
  | 0 => rfl
  | c + 1 =>
    show (0 + (c + 1) - 1) / (c + 1) = 0
    rw [Nat.zero_add]
    exact Nat.div_eq_of_lt (by omega)

theorem ceilDivPosEq (a cs : Nat) (hcs : 0 < cs) (ha : 0 < a) :
    ceilDiv a cs = (a - 1) / cs + 1 := by
  unfold ceilDiv
  rw [show a + cs - 1 = (a - 1) + cs by omega, Nat.add_div_right _ hcs]

theorem ceilDivSubEq (a cs : Nat) (hcs : 0 < cs) (ha : 0 < a) :
    ceilDiv (a - cs) cs = ceilDiv a cs - 1 := by
  rcases Nat.lt_or_ge cs a with h | h
  · rw [ceilDivPosEq _ _ hcs (by omega), ceilDivPosEq _ _ hcs ha]
    have hstep : (a - 1) / cs = (a - cs - 1) / cs + 1 := by
      rw [show a - 1 = (a - cs - 1) + cs by omega, Nat.add_div_right _ hcs]
    rw [hstep, Nat.add_sub_cancel]
  · rw [show a - cs = 0 by omega, ceilDivZeroEq, ceilDivPosEq _ _ hcs ha,
      Nat.div_eq_of_lt (by omega)]

/-- Slicing a list into `ceil(length / cs)` chunks of `cs` and flattening
reproduces the list. -/
theorem flatten_chunks {α : Type} (cs : Nat) (hcs : 0 < cs) :
    ∀ (n : Nat) (l : List α), l.length = n →
    ((List.range (ceilDiv l.length cs)).map
        (fun k => (l.drop (k * cs)).take cs)).flatten = l := by
  intro n
  induction n using Nat.strong_induction_on with
  | _ n ih =>
    intro l hl
    subst hl
    match l with
    | [] => simp [ceilDivZeroEq]
    | a :: l' =>
      have hpos : 0 < (a :: l').length := by simp
      obtain ⟨m, hm⟩ : ∃ m, ceilDiv (a :: l').length cs = m + 1 := by
        rw [ceilDivPosEq _ _ hcs hpos]
        exact ⟨_, rfl⟩
      rw [hm, List.range_succ_eq_map, List.map_cons, List.map_map,
        List.flatten_cons]
      simp only [Nat.zero_mul, List.drop_zero]
      have hfun : ((fun k => ((a :: l').drop (k * cs)).take cs) ∘ Nat.succ)
          = fun k => (((a :: l').drop cs).drop (k * cs)).take cs := by
        funext k
        simp only [Function.comp_apply, List.drop_drop]
        rw [Nat.succ_mul, Nat.add_comm]
      have hlt : ((a :: l').drop cs).length < (a :: l').length := by
        rw [List.length_drop]
        simp only [List.length_cons]
        omega
      have hrec := ih ((a :: l').drop cs).length hlt ((a :: l').drop cs) rfl
      have hcd : ceilDiv ((a :: l').drop cs).length cs = m := by
        rw [List.length_drop, ceilDivSubEq _ _ hcs hpos, hm]
        omega
      rw [hcd] at hrec
      rw [hfun, hrec, List.take_append_drop]

theorem extractChunk_ok (data : Json) (cs k : Nat) (hk : k < ceilDiv (jsonStringifyPretty data).data.length cs) :
    extractChunk data (k : Int) cs
      = .ok { chunk := ⟨((jsonStringifyPretty data).data.drop (k * cs)).take cs⟩
              chunkNumber := (k : Int)
              totalChunks := ceilDiv (jsonStringifyPretty data).data.length cs
              chunkSize := (((jsonStringifyPretty data).data.drop (k * cs)).take cs).length
              hasMore := decide ((k : Int)
                < (ceilDiv (jsonStringifyPretty data).data.length cs : Int) - 1) } := by
  simp only [extractChunk]
  rw [if_neg (by push_neg; exact ⟨Int.natCast_nonneg k, by exact_mod_cast hk⟩)]
  rw [Int.toNat_natCast]

/-- `String.join` over strings built from character lists is the flatten of
the lists. -/
theorem stringJoin_mk (ls : List (List Char)) :
    String.join (ls.map (fun d => String.mk d)) = String.mk ls.flatten := by
  suffices h : ∀ acc : List Char,
      List.foldl (fun r s => r ++ s) (String.mk acc) (ls.map fun d => String.mk d)
        = String.mk (acc ++ ls.flatten) by
    simpa [String.join] using h []
  induction ls with
  | nil => intro acc; simp
  | cons d ls ih =>
    intro acc
    simp only [List.map_cons, List.foldl_cons]
    rw [show String.mk acc ++ String.mk d = String.mk (acc ++ d) from rfl, ih]
    simp

/-- C3: with a positive chunk size, concatenating
`extractChunk(value, k, chunkSize).chunk` for `k = 0 .. totalChunks-1`
reproduces the canonical (pretty) serialization exactly, and `extractChunk`
at `chunkNumber = totalChunks` or at any negative `chunkNumber` fails with
the range error. -/
theorem extractChunk_roundtrip (data : Json) (cs : Nat) (hcs : 0 < cs) :
    (String.join ((List.range (ceilDiv (jsonStringifyPretty data).data.length cs)).map
        (fun (k : Nat) => match extractChunk data (k : Int) cs with
          | .ok r => r.chunk
          | .error _ => "")) = jsonStringifyPretty data)
    ∧ (∃ msg, extractChunk data
        (ceilDiv (jsonStringifyPretty data).data.length cs : Int) cs = .error msg)
    ∧ (∀ k : Int, k < 0 → ∃ msg, extractChunk data k cs = .error msg) := by
  refine ⟨?_, ?_, ?_⟩
  · have hmap : ∀ k ∈ List.range (ceilDiv (jsonStringifyPretty data).data.length cs),
        (match extractChunk data (k : Int) cs with
          | .ok r => r.chunk
          | .error _ => "")
        = String.mk (((jsonStringifyPretty data).data.drop (k * cs)).take cs) := by
      intro k hk
      rw [extractChunk_ok data cs k (List.mem_range.mp hk)]
    rw [List.map_congr_left hmap,
      show (fun k => String.mk (((jsonStringifyPretty data).data.drop (k * cs)).take cs))
          = (fun d => String.mk d)
            ∘ (fun k => ((jsonStringifyPretty data).data.drop (k * cs)).take cs) from rfl,
      ← List.map_map, stringJoin_mk,
      flatten_chunks cs hcs (jsonStringifyPretty data).data.length
        (jsonStringifyPretty data).data rfl]
  · have herr : extractChunk data
        (ceilDiv (jsonStringifyPretty data).data.length cs : Int) cs
        = .error ("Invalid chunk number. Valid range: 0-"
            ++ toString ((ceilDiv (jsonStringifyPretty data).data.length cs : Int) - 1)) := by
      simp only [extractChunk]
      rw [if_pos (Or.inr (le_refl _))]
    exact ⟨_, herr⟩
  · intro k hk
    have herr : extractChunk data k cs
        = .error ("Invalid chunk number. Valid range: 0-"
            ++ toString ((ceilDiv (jsonStringifyPretty data).data.length cs : Int) - 1)) := by
      simp only [extractChunk]
      rw [if_pos (Or.inl hk)]
    exact ⟨_, herr⟩

/-- C3 (witness): the payload `[10, 200]` pretty-prints as the 13-character
text with chunks of size 4 joining back to it, chunk 4 of 4 is a range
error, and chunk -1 is a range error. -/
theorem extractChunk_roundtrip_witness :
    (String.join ((List.range (ceilDiv (jsonStringifyPretty
        (.arr (.cons (.num 10) (.cons (.num 200) .nil)))).data.length 4)).map
        (fun (k : Nat) => match extractChunk (.arr (.cons (.num 10) (.cons (.num 200) .nil)))
            (k : Int) 4 with
          | .ok r => r.chunk
          | .error _ => ""))
      = jsonStringifyPretty (.arr (.cons (.num 10) (.cons (.num 200) .nil))))
    ∧ (∃ msg, extractChunk (.arr (.cons (.num 10) (.cons (.num 200) .nil)))
        (ceilDiv (jsonStringifyPretty
          (.arr (.cons (.num 10) (.cons (.num 200) .nil)))).data.length 4 : Int) 4
        = .error msg)
    ∧ (∃ msg, extractChunk (.arr (.cons (.num 10) (.cons (.num 200) .nil)))
        (-1) 4 = .error msg) := by
  have h := extractChunk_roundtrip (.arr (.cons (.num 10) (.cons (.num 200) .nil))) 4
    (by decide)
  exact ⟨h.1, h.2.1, h.2.2 (-1) (by decide)⟩
